import Mathlib

/-!
Verification of the text2sql generation-and-safety pipeline.

Strings of the Python source are modelled as `List Char` (ASCII level).
Each definition is a shallow embedding of a function or code block of the
repository: `validate_sql` embeds `src/sql_validator.py`, the extraction
definitions embed the SQL-cleanup block of `src/app.py` (tab 1), `run_query`
embeds `src/app.py`'s executor with the session log and the set of queries
submitted to the engine made explicit, and `index_schema` embeds
`src/chroma_manager.py`'s schema re-indexing over an explicit snippet list.
-/

namespace Text2Sql

/-- Python `str.strip` whitespace class (ASCII): space, tab, LF, CR, VT, FF. -/
def pySpace (c : Char) : Bool :=
  c == ' ' || c == '\t' || c == '\n' || c == '\r' || c == '\x0b' || c == '\x0c'

/-- Python regex word character `\w` at ASCII level: letters, digits, underscore. -/
def wordChar (c : Char) : Bool :=
  c.isAlphanum || c == '_'

/-- Python `str.upper` (ASCII level). -/
def listUpper (s : List Char) : List Char := s.map Char.toUpper

/-- Python `str.lower` (ASCII level). -/
def listLower (s : List Char) : List Char := s.map Char.toLower

/-- Drop trailing whitespace: Python `str.rstrip`. -/
def stripRight (s : List Char) : List Char :=
  (s.reverse.dropWhile pySpace).reverse

/-- Python `str.strip`: drop leading and trailing whitespace. -/
def pyStrip (s : List Char) : List Char :=
  stripRight (s.dropWhile pySpace)

/-- Python `tok in s` substring test. -/
def isSubstr (tok : List Char) : List Char → Bool
  | [] => tok.isEmpty
  | c :: s => tok.isPrefixOf (c :: s) || isSubstr tok s

/-- The part of `s` before the first occurrence of `tok` (all of `s` if absent):
the first element of Python `s.split(tok)`. -/
def takeBeforeSub (tok : List Char) : List Char → List Char
  | [] => []
  | c :: s => if tok.isPrefixOf (c :: s) then [] else c :: takeBeforeSub tok s

/-- The part of `s` after the first occurrence of `tok` (empty if absent). -/
def dropPastSub (tok : List Char) : List Char → List Char
  | [] => []
  | c :: s => if tok.isPrefixOf (c :: s) then (c :: s).drop tok.length
              else dropPastSub tok s

/-- Fuelled worker for Python `str.split` on a non-empty separator. -/
def splitOnSubAux (tok : List Char) : Nat → List Char → List (List Char)
  | 0, s => [s]
  | n + 1, s =>
      if isSubstr tok s && !tok.isEmpty then
        takeBeforeSub tok s :: splitOnSubAux tok n (dropPastSub tok s)
      else [s]

/-- Python `s.split(tok)` (the fuel `s.length + 1` always suffices because each
removed separator occurrence is non-empty). -/
def splitOnSub (tok s : List Char) : List (List Char) :=
  splitOnSubAux tok (s.length + 1) s

/-- Python `sep.join(parts)` for a one-character separator. -/
def joinWith (c : Char) : List (List Char) → List Char
  | [] => []
  | [l] => l
  | l :: ls => l ++ c :: joinWith c ls

/-! ### The SQL validator, from `src/sql_validator.py` -/

/-- `^\s*SELECT` with `re.IGNORECASE`: after optional leading whitespace the
query continues with `SELECT` in any letter case. -/
def startsSelectCI (s : List Char) : Bool :=
  "SELECT".data.isPrefixOf (listUpper (s.dropWhile pySpace))

/-- Right-hand word boundary after a match of `kw` at the head of `s`. -/
def wordBoundAfter (kw s : List Char) : Bool :=
  match s.drop kw.length with
  | [] => true
  | c :: _ => !wordChar c

/-- `kw` occurs at the head of `s` with a word boundary after it. -/
def hasWordHere (kw s : List Char) : Bool :=
  kw.isPrefixOf s && wordBoundAfter kw s

/-- Worker for `re.search(r'\b' + kw + r'\b', s)`: `prevW` records whether the
character just before the current position is a word character. -/
def cwwAux (kw : List Char) : Bool → List Char → Bool
  | _, [] => false
  | prevW, c :: s => (!prevW && hasWordHere kw (c :: s)) || cwwAux kw (wordChar c) s

/-- `re.search(r'\b' + kw + r'\b', s) is not None` for a keyword made of word
characters: `kw` occurs in `s` as a whole word. -/
def containsWholeWord (kw s : List Char) : Bool :=
  cwwAux kw false s

/-- The denylist of `validate_sql` in source order. -/
def prohibited_keywords : List (List Char) :=
  ["INSERT".data, "UPDATE".data, "DELETE".data, "DROP".data, "ALTER".data,
   "ATTACH".data, "DETACH".data, "PRAGMA".data, "TRUNCATE".data, "REPLACE".data,
   "CREATE".data, "GRANT".data, "REVOKE".data, "COMMIT".data, "ROLLBACK".data,
   "EXEC".data, "EXECUTE".data]

/-- `validate_sql` from `src/sql_validator.py`: returns
`(is_valid, error_message)`. -/
def validate_sql (query : List Char) : Bool × List Char :=
  if query.isEmpty then (false, "Query is empty.".data)
  else
    let q := pyStrip query
    if q.isEmpty then (false, "Query is empty.".data)
    else if q.dropLast.contains ';' then
      (false, "Multiple statements are not allowed (semicolon detected in middle of query).".data)
    else if !startsSelectCI q then
      (false, "Only SELECT queries are allowed.".data)
    else
      match prohibited_keywords.find? (fun kw => containsWholeWord kw (listUpper q)) with
      | some kw => (false, "Prohibited keyword detected: ".data ++ kw)
      | none =>
        if isSubstr "--".data q || isSubstr "/*".data q then
          (false, "SQL comments are not allowed.".data)
        else (true, "Valid SQL".data)

example : (validate_sql "SELECT * FROM t;".data).1 = true := by decide
example : (validate_sql "select 1".data).1 = true := by decide
example : validate_sql [] = (false, "Query is empty.".data) := by decide
example : (validate_sql "SELECT 1 -- comment".data).2 = "SQL comments are not allowed.".data := by
  decide
example : (validate_sql "SELECT updated_at FROM t".data).1 = true := by decide
example : (validate_sql "SELECT 1; ".data).1 = true := by decide
example : validate_sql "DROP TABLE t".data = (false, "Only SELECT queries are allowed.".data) := by
  decide

/-! ### The completion extractor, from the tab-1 cleanup block of `src/app.py` -/

/-- The literal separator the prompt instructs the model to emit. -/
def sepStr : List Char := "### SQL START ###".data

/-- A Markdown code-fence marker. -/
def fenceStr : List Char := "```".data

/-- Lines 200–201 of `src/app.py`: strip a Markdown code fence
(`split("```")[1].strip()`) when the text starts with one. -/
def stripFence1 (s : List Char) : List Char :=
  if fenceStr.isPrefixOf s then pyStrip ((splitOnSub fenceStr s).getD 1 []) else s

/-- Lines 200–203 of `src/app.py`: strip a Markdown code fence and then a
leading `sql` language tag (`[3:].strip()`), each when present. -/
def stripFences (s : List Char) : List Char :=
  if "sql".data.isPrefixOf (listLower (stripFence1 s)) then pyStrip ((stripFence1 s).drop 3)
  else stripFence1 s

/-- Index (in `s`) of the first occurrence of `tok` (Python `s.find(tok)` when
the occurrence exists). -/
def idxOfSub (tok s : List Char) : Nat :=
  (takeBeforeSub tok s).length

/-- Lines 206–223 of `src/app.py`: isolate `(reasoning, sql_candidate)` by the
separator split when the separator is present, else by the first
case-insensitive `SELECT`, else pass the text through unchanged. -/
def extractParts (s : List Char) : List Char × List Char :=
  if isSubstr sepStr s then
    (pyStrip ((splitOnSub sepStr s).getD 0 []), pyStrip ((splitOnSub sepStr s).getD 1 []))
  else if isSubstr "SELECT".data (listUpper s) then
    let i := idxOfSub "SELECT".data (listUpper s)
    let pre := pyStrip (s.take i)
    (if 5 < pre.length then pre else [], s.drop i)
  else ([], s)

/-- One line survives cleanup when it is not a `--` or `/*` comment line. -/
def lineIsComment (l : List Char) : Bool :=
  "--".data.isPrefixOf (pyStrip l) || "/*".data.isPrefixOf (pyStrip l)

/-- A line at which the cleanup loop stops entirely. -/
def lineIsNote (l : List Char) : Bool :=
  "Note:".data.isPrefixOf (pyStrip l) || "Explanation:".data.isPrefixOf (pyStrip l)

/-- The line loop of lines 226–232 of `src/app.py`: stop at the first
`Note:`/`Explanation:` line, drop comment lines, keep the rest in order. -/
def cleanLoop : List (List Char) → List (List Char)
  | [] => []
  | l :: ls =>
      if lineIsNote l then []
      else if lineIsComment l then cleanLoop ls
      else l :: cleanLoop ls

/-- Lines 226–233 of `src/app.py`: split into lines, run the cleanup loop,
rejoin with newlines and strip. -/
def cleanupLines (s : List Char) : List Char :=
  pyStrip (joinWith '\n' (cleanLoop (splitOnSub ['\n'] s)))

/-- Lines 236–237 of `src/app.py`: if a semicolon is present, truncate to the
first statement (`split(";")[0] + ";"`). -/
def fixSemicolon (s : List Char) : List Char :=
  if isSubstr [';'] s then (splitOnSub [';'] s).headD [] ++ [';'] else s

/-- The whole extraction block of `src/app.py` (lines 196–237), from the raw
completion text to `(reasoning, sql)`. -/
def extractSQL (raw : List Char) : List Char × List Char :=
  ((extractParts (stripFences (pyStrip raw))).1,
   fixSemicolon (cleanupLines (extractParts (stripFences (pyStrip raw))).2))

/-- The same extraction block with every Python list indexing modelled as a
fallible operation (`Option`): the result is `none` exactly when the Python
code would raise an `IndexError` on a `parts[i]` access. -/
def extractSQLOpt (raw : List Char) : Option (List Char × List Char) :=
  (if fenceStr.isPrefixOf (pyStrip raw) then
      ((splitOnSub fenceStr (pyStrip raw))[1]?).map pyStrip
   else some (pyStrip raw)).bind fun s1a =>
  (if "sql".data.isPrefixOf (listLower s1a) then pyStrip (s1a.drop 3) else s1a) |>
    fun s1 =>
  (if isSubstr sepStr s1 then
     ((splitOnSub sepStr s1)[0]?).bind fun p0 =>
       ((splitOnSub sepStr s1)[1]?).map fun p1 => (pyStrip p0, pyStrip p1)
   else if isSubstr "SELECT".data (listUpper s1) then
     some
       (let i := idxOfSub "SELECT".data (listUpper s1)
        let pre := pyStrip (s1.take i)
        (if 5 < pre.length then pre else [], s1.drop i))
   else some ([], s1)).map fun rc => (rc.1, fixSemicolon (cleanupLines rc.2))

example :
    extractSQL "reasoning text ### SQL START ### SELECT * FROM t;\nNote: done".data
      = ("reasoning text".data, "SELECT * FROM t;".data) := by decide
example : fixSemicolon "SELECT a FROM b; SELECT c FROM d;".data = "SELECT a FROM b;".data := by
  decide
example :
    extractSQL "A ### SQL START ### B ### SQL START ### C".data = ("A".data, "B".data) := by
  decide

/-! ### The query executor, from `run_query` in `src/app.py` -/

/-- One entry of the in-memory session log (`st.session_state.logs`). -/
inductive LogEntry
  | success (query timeStr : List Char)
  | error (query err : List Char)
deriving DecidableEq

/-- Everything observable about one `run_query` call: the returned pair
`(df, error)`, the session log after the call, and the list of queries that
reached the database engine during the call. -/
structure QueryOutcome (Df : Type) where
  df : Option Df
  errMsg : Option (List Char)
  logs : List LogEntry
  submitted : List (List Char)
deriving DecidableEq

/-- `run_query` from `src/app.py`: validate, and only on success run the query
against the engine (an abstract function that yields rows or an engine error),
prepending a log entry for the execution. `timeStr` stands for the measured
wall-clock duration string. -/
def run_query {Df : Type} (engine : List Char → Except (List Char) Df)
    (timeStr : List Char) (logs : List LogEntry) (query : List Char) : QueryOutcome Df :=
  let v := validate_sql query
  if v.1 then
    match engine query with
    | .ok df => ⟨some df, none, .success query timeStr :: logs, [query]⟩
    | .error e => ⟨none, some ("Execution Error: ".data ++ e), .error query e :: logs, [query]⟩
  else ⟨none, some ("Validation Error: ".data ++ v.2), logs, []⟩

/-! ### The context store, from `ChromaManager.index_schema` in
`src/chroma_manager.py`. The Chroma collection is modelled as the list of its
snippets (id, document text, and the `type`/`table`-or-`topic` metadata). -/

/-- One stored snippet with its metadata. -/
structure Snippet where
  id : List Char
  text : List Char
  mtype : List Char
  mkey : List Char
deriving DecidableEq

/-- The snippet built from the enumerated chunk `(i, chunk)` of the schema
text: id `schema_<table>_<i>`, document `Table: <chunk>`, metadata
`type=schema`, `table=<first line of chunk, stripped>`. -/
def chunkSnippet (i : Nat) (chunk : List Char) : Snippet :=
  let table_name := pyStrip ((splitOnSub ['\n'] chunk).headD [])
  ⟨"schema_".data ++ table_name ++ "_".data ++ (Nat.repr i).data,
   "Table: ".data ++ chunk, "schema".data, table_name⟩

/-- The snippets `index_schema` inserts for a schema text: split on the
`Table: ` marker, skip blank chunks, and wrap each chunk back up. -/
def schemaChunks (schema_text : List Char) : List Snippet :=
  (((splitOnSub "Table: ".data schema_text).enum).filter
      (fun p => !(pyStrip p.2).isEmpty)).map (fun p => chunkSnippet p.1 p.2)

/-- `ChromaManager.index_schema`: delete every snippet whose metadata type is
`schema`, then add the chunks of the new schema text. -/
def index_schema (schema_text : List Char) (coll : List Snippet) : List Snippet :=
  coll.filter (fun sn => !(sn.mtype == "schema".data)) ++ schemaChunks schema_text

/-! ### Occurrence lemmas for `isSubstr`, `takeBeforeSub`, `dropPastSub` -/

/-- `t` occurs contiguously inside `s`. -/
def OccursIn (t s : List Char) : Prop := ∃ pre post, s = pre ++ t ++ post

theorem isPrefixOf_iff_ex {t s : List Char} :
    t.isPrefixOf s = true ↔ ∃ u, s = t ++ u := by
  induction t generalizing s with
  | nil => simp [List.isPrefixOf]
  | cons a t ih =>
    cases s with
    | nil => simp [List.isPrefixOf]
    | cons b s =>
      simp only [List.isPrefixOf, Bool.and_eq_true, beq_iff_eq, ih, List.cons_append]
      constructor
      · rintro ⟨rfl, u, rfl⟩; exact ⟨u, rfl⟩
      · rintro ⟨u, h⟩
        injection h with h1 h2
        exact ⟨h1.symm, u, h2⟩

theorem isSubstr_iff {tok s : List Char} :
    isSubstr tok s = true ↔ OccursIn tok s := by
  induction s with
  | nil =>
    simp only [isSubstr, List.isEmpty_iff, OccursIn]
    constructor
    · rintro rfl; exact ⟨[], [], rfl⟩
    · rintro ⟨pre, post, h⟩
      exact (List.append_eq_nil.mp (List.append_eq_nil.mp h.symm).1).2
  | cons c s ih =>
    simp only [isSubstr, Bool.or_eq_true, isPrefixOf_iff_ex, ih]
    constructor
    · rintro (⟨u, h⟩ | ⟨pre, post, h⟩)
      · exact ⟨[], u, by simp [h]⟩
      · exact ⟨c :: pre, post, by simp [h]⟩
    · rintro ⟨pre, post, h⟩
      cases pre with
      | nil => exact Or.inl ⟨post, by simpa using h⟩
      | cons x pre =>
        injection h with _ h2
        exact Or.inr ⟨pre, post, h2⟩

theorem occursIn_trans {a b c : List Char} (h1 : OccursIn a b) (h2 : OccursIn b c) :
    OccursIn a c := by
  obtain ⟨p1, q1, rfl⟩ := h1
  obtain ⟨p2, q2, rfl⟩ := h2
  exact ⟨p2 ++ p1, q1 ++ q2, by simp⟩

theorem occursIn_refl (s : List Char) : OccursIn s s := ⟨[], [], by simp⟩

theorem occursIn_map {t s : List Char} (f : Char → Char) (h : OccursIn t s) :
    OccursIn (t.map f) (s.map f) := by
  obtain ⟨pre, post, rfl⟩ := h
  exact ⟨pre.map f, post.map f, by simp⟩

theorem isSubstr_false_of_occursIn {tok t s : List Char} (hin : OccursIn t s)
    (h : isSubstr tok s = false) : isSubstr tok t = false := by
  rw [Bool.eq_false_iff] at h ⊢
  intro ht
  exact h (isSubstr_iff.mpr (occursIn_trans (isSubstr_iff.mp ht) hin))

theorem occursIn_of_pre {t s : List Char} (h : ∃ u, s = t ++ u) : OccursIn t s := by
  obtain ⟨u, rfl⟩ := h
  exact ⟨[], u, rfl⟩

theorem occursIn_of_suf {t s : List Char} (h : ∃ u, s = u ++ t) : OccursIn t s := by
  obtain ⟨u, rfl⟩ := h
  exact ⟨u, [], by simp⟩

theorem dropWhile_suf (p : Char → Bool) (l : List Char) :
    ∃ u, l = u ++ l.dropWhile p :=
  ⟨l.takeWhile p, (List.takeWhile_append_dropWhile p l).symm⟩

theorem occursIn_dropWhile (p : Char → Bool) (l : List Char) :
    OccursIn (l.dropWhile p) l :=
  occursIn_of_suf (dropWhile_suf p l)

theorem occursIn_stripRight (l : List Char) : OccursIn (stripRight l) l := by
  obtain ⟨u, hu⟩ := dropWhile_suf pySpace l.reverse
  refine occursIn_of_pre ⟨u.reverse, ?_⟩
  have := congrArg List.reverse hu
  simpa [stripRight] using this

theorem occursIn_pyStrip (l : List Char) : OccursIn (pyStrip l) l :=
  occursIn_trans (occursIn_stripRight _) (occursIn_dropWhile pySpace l)

theorem occursIn_drop (n : Nat) (l : List Char) : OccursIn (l.drop n) l :=
  occursIn_of_suf ⟨l.take n, (List.take_append_drop n l).symm⟩

theorem occursIn_take (n : Nat) (l : List Char) : OccursIn (l.take n) l :=
  occursIn_of_pre ⟨l.drop n, (List.take_append_drop n l).symm⟩

theorem takeBeforeSub_pre (tok s : List Char) :
    ∃ u, s = takeBeforeSub tok s ++ u := by
  induction s with
  | nil => exact ⟨[], rfl⟩
  | cons c s ih =>
    by_cases h : tok.isPrefixOf (c :: s) = true
    · exact ⟨c :: s, by simp [takeBeforeSub, h]⟩
    · obtain ⟨u, hu⟩ := ih
      exact ⟨u, by rw [takeBeforeSub, if_neg h, List.cons_append, ← hu]⟩

theorem dropPastSub_suf (tok s : List Char) :
    ∃ u, s = u ++ dropPastSub tok s := by
  induction s with
  | nil => exact ⟨[], rfl⟩
  | cons c s ih =>
    by_cases h : tok.isPrefixOf (c :: s) = true
    · refine ⟨(c :: s).take tok.length, ?_⟩
      rw [dropPastSub, if_pos h, List.take_append_drop]
    · obtain ⟨u, hu⟩ := ih
      exact ⟨c :: u, by rw [dropPastSub, if_neg h, List.cons_append, ← hu]⟩

theorem takeBeforeSub_eq_self {tok s : List Char} (h : isSubstr tok s = false) :
    takeBeforeSub tok s = s := by
  induction s with
  | nil => rfl
  | cons c s ih =>
    rw [isSubstr, Bool.or_eq_false_iff] at h
    rw [takeBeforeSub, if_neg (by simp [h.1]), ih h.2]

theorem isSubstr_of_pre {tok s : List Char} (hne : tok ≠ [])
    (h : tok.isPrefixOf s = true) : isSubstr tok s = true := by
  cases s with
  | nil =>
    obtain ⟨u, hu⟩ := isPrefixOf_iff_ex.mp h
    cases tok with
    | nil => exact absurd rfl hne
    | cons a t => exact absurd hu.symm (by simp)
  | cons c s => rw [isSubstr, h, Bool.true_or]

theorem sub_ne_nil {tok s : List Char} (hne : tok ≠ []) (h : isSubstr tok s = true) :
    s ≠ [] := by
  intro rfl_s
  subst rfl_s
  rw [isSubstr, List.isEmpty_iff] at h
  exact hne h

theorem isSubstr_cons_tail {tok s : List Char} {c : Char}
    (h : isSubstr tok (c :: s) = false) : isSubstr tok s = false := by
  rw [isSubstr, Bool.or_eq_false_iff] at h
  exact h.2

/-! ### `splitOnSub` lemmas -/

theorem splitOnSubAux_mem_occursIn {tok : List Char} :
    ∀ {n s l}, l ∈ splitOnSubAux tok n s → OccursIn l s := by
  intro n
  induction n with
  | zero =>
    intro s l h
    rw [splitOnSubAux, List.mem_singleton] at h
    exact h ▸ occursIn_refl s
  | succ n ih =>
    intro s l h
    rw [splitOnSubAux] at h
    by_cases hc : (isSubstr tok s && !tok.isEmpty) = true
    · rw [if_pos hc, List.mem_cons] at h
      rcases h with rfl | h
      · exact occursIn_of_pre (takeBeforeSub_pre tok s)
      · exact occursIn_trans (ih h) (occursIn_of_suf (dropPastSub_suf tok s))
    · rw [if_neg hc, List.mem_singleton] at h
      exact h ▸ occursIn_refl s

theorem isEmpty_false_of_ne {tok : List Char} (hne : tok ≠ []) :
    tok.isEmpty = false := by
  cases tok with
  | nil => exact absurd rfl hne
  | cons a t => rfl

theorem getD_zero_headD (l : List (List Char)) :
    l.getD 0 [] = l.headD [] := by
  cases l <;> rfl

theorem splitOnSubAux_headD {tok s : List Char} {n : Nat} (hn : 0 < n)
    (hne : tok ≠ []) :
    (splitOnSubAux tok n s).headD [] = takeBeforeSub tok s := by
  cases n with
  | zero => exact absurd hn (by simp)
  | succ n =>
    rw [splitOnSubAux]
    by_cases hs : isSubstr tok s = true
    · rw [if_pos (by simp [hs, isEmpty_false_of_ne hne])]; rfl
    · rw [if_neg (by simp [Bool.eq_false_iff.mpr hs])]
      rw [takeBeforeSub_eq_self (Bool.eq_false_iff.mpr hs)]; rfl

theorem splitOnSubAux_getD1 {tok s : List Char} {n : Nat} (hn : 1 < n)
    (hs : isSubstr tok s = true) (hne : tok ≠ []) :
    (splitOnSubAux tok n s).getD 1 [] = takeBeforeSub tok (dropPastSub tok s) := by
  cases n with
  | zero => exact absurd hn (by simp)
  | succ n =>
    rw [splitOnSubAux, if_pos (by simp [hs, isEmpty_false_of_ne hne])]
    rw [List.getD_cons_succ, getD_zero_headD]
    exact splitOnSubAux_headD (by omega) hne

theorem splitOnSubAux_len2 {tok s : List Char} {n : Nat} (hn : 1 < n)
    (hs : isSubstr tok s = true) (hne : tok ≠ []) :
    2 ≤ (splitOnSubAux tok n s).length := by
  cases n with
  | zero => exact absurd hn (by simp)
  | succ n =>
    rw [splitOnSubAux, if_pos (by simp [hs, List.isEmpty_iff, hne])]
    have : (splitOnSubAux tok n (dropPastSub tok s)).length ≠ 0 := by
      cases n with
      | zero => simp [splitOnSubAux]
      | succ m =>
        rw [splitOnSubAux]
        by_cases hc : (isSubstr tok (dropPastSub tok s) && !tok.isEmpty) = true
        · rw [if_pos hc]; simp
        · rw [if_neg hc]; simp
    simp only [List.length_cons]
    omega

theorem splitOnSub_headD (tok s : List Char) (hne : tok ≠ []) :
    (splitOnSub tok s).headD [] = takeBeforeSub tok s :=
  splitOnSubAux_headD (by omega) hne

theorem splitOnSub_getD1 {tok s : List Char} (hs : isSubstr tok s = true)
    (hne : tok ≠ []) :
    (splitOnSub tok s).getD 1 [] = takeBeforeSub tok (dropPastSub tok s) := by
  have hlen : s ≠ [] := sub_ne_nil hne hs
  have : 1 < s.length + 1 := by
    cases s with
    | nil => exact absurd rfl hlen
    | cons c u => simp
  exact splitOnSubAux_getD1 this hs hne

theorem splitOnSub_len2 {tok s : List Char} (hs : isSubstr tok s = true)
    (hne : tok ≠ []) : 2 ≤ (splitOnSub tok s).length := by
  have hlen : s ≠ [] := sub_ne_nil hne hs
  have : 1 < s.length + 1 := by
    cases s with
    | nil => exact absurd rfl hlen
    | cons c u => simp
  exact splitOnSubAux_len2 this hs hne

theorem splitOnSub_mem_occursIn {tok s l : List Char} (h : l ∈ splitOnSub tok s) :
    OccursIn l s :=
  splitOnSubAux_mem_occursIn h

/-! ### First-occurrence characterization -/

theorem isPrefixOf_append_of_le {t a b : List Char} (h : t.isPrefixOf (a ++ b) = true)
    (hl : t.length ≤ a.length) : t.isPrefixOf a = true := by
  induction t generalizing a with
  | nil => rw [List.isPrefixOf]
  | cons x t ih =>
    cases a with
    | nil => simp at hl
    | cons y a =>
      rw [List.cons_append, List.isPrefixOf, Bool.and_eq_true] at h
      rw [List.isPrefixOf, Bool.and_eq_true]
      exact ⟨h.1, ih h.2 (by simpa using hl)⟩

theorem firstOcc_decomp {tok pre post : List Char} (hne : tok ≠ [])
    (hpre : isSubstr tok (pre ++ tok.dropLast) = false) :
    takeBeforeSub tok (pre ++ tok ++ post) = pre ∧
      dropPastSub tok (pre ++ tok ++ post) = post := by
  induction pre with
  | nil =>
    cases tok with
    | nil => exact absurd rfl hne
    | cons a t =>
      have hp : (a :: t).isPrefixOf ((a :: t) ++ post) = true :=
        isPrefixOf_iff_ex.mpr ⟨post, by simp⟩
      constructor
      · rw [List.nil_append, List.cons_append, takeBeforeSub, if_pos (by simp)]
      · rw [List.nil_append, List.cons_append, dropPastSub, if_pos (by simp)]
        rw [← List.cons_append, List.drop_left]
  | cons c pre ih =>
    have hlast := List.dropLast_append_getLast hne
    by_cases hp : tok.isPrefixOf ((c :: pre) ++ tok ++ post) = true
    · exfalso
      have hlen : tok.length ≤ ((c :: pre) ++ tok.dropLast).length := by
        have : 1 ≤ tok.length := by
          cases tok with
          | nil => exact absurd rfl hne
          | cons x t => simp
        simp only [List.length_append, List.length_cons, List.length_dropLast]
        omega
      have hdecomp : (c :: pre) ++ tok ++ post
          = ((c :: pre) ++ tok.dropLast) ++ ([tok.getLast hne] ++ post) := by
        rw [List.append_assoc, List.append_assoc, ← List.append_assoc tok.dropLast]
        rw [hlast]
      rw [List.append_assoc] at hp
      rw [List.append_assoc] at hdecomp
      rw [hdecomp] at hp
      have := isPrefixOf_append_of_le hp hlen
      have hsub : isSubstr tok ((c :: pre) ++ tok.dropLast) = true :=
        isSubstr_of_pre hne this
      rw [hsub] at hpre
      exact absurd hpre (by decide)
    · have htail : isSubstr tok (pre ++ tok.dropLast) = false := by
        have := hpre
        rw [List.cons_append, isSubstr, Bool.or_eq_false_iff] at this
        exact this.2
      obtain ⟨ih1, ih2⟩ := ih htail
      constructor
      · rw [List.cons_append, List.cons_append, takeBeforeSub,
          if_neg (by simpa [List.cons_append] using hp)]
        rw [ih1]
      · rw [List.cons_append, List.cons_append, dropPastSub,
          if_neg (by simpa [List.cons_append] using hp)]
        exact ih2

/-! ### Substring occurrences across a separator character -/

theorem isPrefixOf_through_char {tok v w : List Char} {c : Char} (hc : c ∉ tok)
    (h : tok.isPrefixOf (v ++ c :: w) = true) : tok.isPrefixOf v = true := by
  induction tok generalizing v with
  | nil => rw [List.isPrefixOf]
  | cons x t ih =>
    cases v with
    | nil =>
      rw [List.nil_append, List.isPrefixOf, Bool.and_eq_true, beq_iff_eq] at h
      exact absurd (h.1 ▸ List.mem_cons_self x t) hc
    | cons y v =>
      rw [List.cons_append, List.isPrefixOf, Bool.and_eq_true] at h
      rw [List.isPrefixOf, Bool.and_eq_true]
      exact ⟨h.1, ih (fun hm => hc (List.mem_cons_of_mem x hm)) h.2⟩

theorem isSubstr_split_char {tok l r : List Char} {c : Char} (hne : tok ≠ [])
    (hc : c ∉ tok) (h : isSubstr tok (l ++ c :: r) = true) :
    isSubstr tok l = true ∨ isSubstr tok r = true := by
  induction l with
  | nil =>
    rw [List.nil_append, isSubstr, Bool.or_eq_true] at h
    rcases h with h | h
    · cases tok with
      | nil => exact absurd rfl hne
      | cons x t =>
        rw [List.isPrefixOf, Bool.and_eq_true, beq_iff_eq] at h
        exact absurd (h.1 ▸ List.mem_cons_self x t) hc
    · exact Or.inr h
  | cons a l ih =>
    rw [List.cons_append, isSubstr, Bool.or_eq_true] at h
    rcases h with h | h
    · exact Or.inl (isSubstr_of_pre hne (isPrefixOf_through_char hc h))
    · rcases ih h with h | h
      · exact Or.inl (by rw [isSubstr, h, Bool.or_true])
      · exact Or.inr h

theorem isSubstr_joinWith {tok : List Char} {c : Char} (hne : tok ≠ []) (hc : c ∉ tok) :
    ∀ {ls : List (List Char)}, isSubstr tok (joinWith c ls) = true →
      ∃ l ∈ ls, isSubstr tok l = true := by
  intro ls
  induction ls with
  | nil =>
    intro h
    rw [joinWith, isSubstr, List.isEmpty_iff] at h
    exact absurd h hne
  | cons l ls ih =>
    intro h
    cases ls with
    | nil => exact ⟨l, List.mem_singleton_self l, h⟩
    | cons l2 ls2 =>
      rw [show joinWith c (l :: l2 :: ls2) = l ++ c :: joinWith c (l2 :: ls2) from rfl] at h
      rcases isSubstr_split_char hne hc h with h | h
      · exact ⟨l, List.mem_cons_self _ _, h⟩
      · obtain ⟨u, hu, hsub⟩ := ih h
        exact ⟨u, List.mem_cons_of_mem l hu, hsub⟩

theorem cleanLoop_subset {l : List Char} :
    ∀ {ls : List (List Char)}, l ∈ cleanLoop ls → l ∈ ls := by
  intro ls
  induction ls with
  | nil => intro h; exact absurd h (by simp [cleanLoop])
  | cons x ls ih =>
    intro h
    rw [cleanLoop] at h
    by_cases h1 : lineIsNote x = true
    · rw [if_pos h1] at h; exact absurd h (by simp)
    · rw [if_neg h1] at h
      by_cases h2 : lineIsComment x = true
      · rw [if_pos h2] at h
        exact List.mem_cons_of_mem x (ih h)
      · rw [if_neg h2, List.mem_cons] at h
        rcases h with rfl | h
        · exact List.mem_cons_self _ _
        · exact List.mem_cons_of_mem x (ih h)

/-! ### `listUpper` distribution lemmas -/

theorem listUpper_append (a b : List Char) :
    listUpper (a ++ b) = listUpper a ++ listUpper b := by
  simp [listUpper]

theorem listUpper_joinWith (ls : List (List Char)) :
    listUpper (joinWith '\n' ls) = joinWith '\n' (ls.map listUpper) := by
  induction ls with
  | nil => rfl
  | cons l ls ih =>
    cases ls with
    | nil => rfl
    | cons l2 ls2 =>
      calc listUpper (joinWith '\n' (l :: l2 :: ls2))
          = listUpper l ++ '\n' :: listUpper (joinWith '\n' (l2 :: ls2)) := by
            rw [show joinWith '\n' (l :: l2 :: ls2)
                  = l ++ '\n' :: joinWith '\n' (l2 :: ls2) from rfl, listUpper_append]
            rw [show listUpper ('\n' :: joinWith '\n' (l2 :: ls2))
                  = Char.toUpper '\n' :: listUpper (joinWith '\n' (l2 :: ls2)) from rfl]
            rw [show Char.toUpper '\n' = '\n' from by decide]
        _ = listUpper l ++ '\n' :: joinWith '\n' ((l2 :: ls2).map listUpper) := by rw [ih]
        _ = joinWith '\n' ((l :: l2 :: ls2).map listUpper) := by
            rw [List.map_cons, List.map_cons]; rfl

/-! ### Whole-word search is unaffected by leading/trailing whitespace -/

theorem pySpace_not_word {c : Char} (h : pySpace c = true) : wordChar c = false := by
  rw [pySpace] at h
  simp only [Bool.or_eq_true, beq_iff_eq] at h
  rcases h with ((((rfl | rfl) | rfl) | rfl) | rfl) | rfl <;> decide

theorem toUpper_space_fixed {c : Char} (h : pySpace c = true) : Char.toUpper c = c := by
  rw [pySpace] at h
  simp only [Bool.or_eq_true, beq_iff_eq] at h
  rcases h with ((((rfl | rfl) | rfl) | rfl) | rfl) | rfl <;> decide

theorem hasWordHere_space_head {k : Char} {kt s : List Char} {c : Char}
    (hk : wordChar k = true) (hc : wordChar c = false) :
    hasWordHere (k :: kt) (c :: s) = false := by
  have hkc : (k == c) = false := by
    rw [beq_eq_false_iff_ne]
    intro he
    rw [he, hc] at hk
    exact absurd hk (by decide)
  rw [hasWordHere,
    show (k :: kt).isPrefixOf (c :: s) = ((k == c) && kt.isPrefixOf s) from rfl,
    hkc, Bool.false_and, Bool.false_and]

theorem cwwAux_all_space {kw : List Char} (hne : kw ≠ []) (hw : kw.all wordChar = true) :
    ∀ {ws : List Char}, (∀ c ∈ ws, pySpace c = true) → ∀ prev,
      cwwAux kw prev ws = false := by
  intro ws
  induction ws with
  | nil => intro _ prev; rfl
  | cons c ws ih =>
    intro hs prev
    cases kw with
    | nil => exact absurd rfl hne
    | cons k kt =>
      rw [List.all_cons, Bool.and_eq_true] at hw
      rw [cwwAux,
        hasWordHere_space_head hw.1 (pySpace_not_word (hs c (List.mem_cons_self c ws))),
        Bool.and_false, Bool.false_or]
      exact ih (fun x hx => hs x (List.mem_cons_of_mem c hx)) (wordChar c)

theorem nil_isPre (x : List Char) : List.isPrefixOf [] x = true := by
  cases x <;> rfl

theorem isPrefixOf_append_space {kw : List Char} (hw : kw.all wordChar = true)
    {ws : List Char} (hs : ∀ c ∈ ws, pySpace c = true) :
    ∀ v, kw.isPrefixOf (v ++ ws) = kw.isPrefixOf v := by
  induction kw with
  | nil => intro v; rw [nil_isPre, nil_isPre]
  | cons k kt ih =>
    rw [List.all_cons, Bool.and_eq_true] at hw
    intro v
    cases v with
    | nil =>
      cases ws with
      | nil => rfl
      | cons w ws2 =>
        have hkw : (k == w) = false := by
          rw [beq_eq_false_iff_ne]
          intro he
          have hnw := pySpace_not_word (hs w (List.mem_cons_self w ws2))
          rw [← he, hw.1] at hnw
          exact absurd hnw (by decide)
        rw [List.nil_append,
          show (k :: kt).isPrefixOf (w :: ws2) = ((k == w) && kt.isPrefixOf ws2) from rfl,
          hkw, Bool.false_and]
        rfl
    | cons a v2 =>
      rw [List.cons_append,
        show (k :: kt).isPrefixOf (a :: (v2 ++ ws)) = ((k == a) && kt.isPrefixOf (v2 ++ ws))
          from rfl,
        show (k :: kt).isPrefixOf (a :: v2) = ((k == a) && kt.isPrefixOf v2) from rfl,
        ih hw.2 v2]

theorem wordBoundAfter_append_space {kw v ws : List Char}
    (hs : ∀ c ∈ ws, pySpace c = true) :
    wordBoundAfter kw (v ++ ws) = wordBoundAfter kw v := by
  rw [wordBoundAfter, wordBoundAfter, List.drop_append_eq_append_drop]
  cases h : v.drop kw.length with
  | nil =>
    rw [List.nil_append]
    cases h2 : ws.drop (kw.length - v.length) with
    | nil => rfl
    | cons w rest =>
      have hw : w ∈ ws :=
        List.mem_of_mem_drop (by rw [h2]; exact List.mem_cons_self _ _)
      show (!wordChar w) = true
      rw [pySpace_not_word (hs w hw)]
      rfl
  | cons c rest =>
    rw [List.cons_append]

theorem hasWordHere_append_space {kw v ws : List Char} (hw : kw.all wordChar = true)
    (hs : ∀ c ∈ ws, pySpace c = true) :
    hasWordHere kw (v ++ ws) = hasWordHere kw v := by
  rw [hasWordHere, hasWordHere, isPrefixOf_append_space hw hs v,
    wordBoundAfter_append_space hs]

theorem cwwAux_append_space {kw : List Char} (hne : kw ≠ [])
    (hw : kw.all wordChar = true) {ws : List Char}
    (hs : ∀ c ∈ ws, pySpace c = true) :
    ∀ v prev, cwwAux kw prev (v ++ ws) = cwwAux kw prev v := by
  intro v
  induction v with
  | nil =>
    intro prev
    rw [List.nil_append, cwwAux_all_space hne hw hs prev]
    rfl
  | cons c v2 ih =>
    intro prev
    rw [List.cons_append, cwwAux, cwwAux, ← List.cons_append,
      hasWordHere_append_space hw hs, ih (wordChar c)]

theorem cww_cons_space {kw : List Char} (hne : kw ≠ []) (hw : kw.all wordChar = true)
    {c : Char} {u : List Char} (hc : pySpace c = true) :
    containsWholeWord kw (c :: u) = containsWholeWord kw u := by
  cases kw with
  | nil => exact absurd rfl hne
  | cons k kt =>
    rw [List.all_cons, Bool.and_eq_true] at hw
    rw [containsWholeWord, cwwAux, hasWordHere_space_head hw.1 (pySpace_not_word hc),
      Bool.and_false, Bool.false_or, pySpace_not_word hc]
    rfl

theorem cww_append_space_left {kw : List Char} (hne : kw ≠ [])
    (hw : kw.all wordChar = true) {ws : List Char}
    (hs : ∀ c ∈ ws, pySpace c = true) (u : List Char) :
    containsWholeWord kw (ws ++ u) = containsWholeWord kw u := by
  induction ws with
  | nil => rfl
  | cons c ws2 ih =>
    rw [List.cons_append,
      cww_cons_space hne (by simpa using hw) (hs c (List.mem_cons_self c ws2)),
      ih (fun x hx => hs x (List.mem_cons_of_mem c hx))]

theorem mem_upper_space {l : List Char} (hl : ∀ c ∈ l, pySpace c = true) :
    ∀ x ∈ listUpper l, pySpace x = true := by
  intro x hx
  obtain ⟨c, hc, rfl⟩ := List.mem_map.mp hx
  rw [toUpper_space_fixed (hl c hc)]
  exact hl c hc

theorem cww_upper_pyStrip {kw q : List Char} (hne : kw ≠ [])
    (hw : kw.all wordChar = true) :
    containsWholeWord kw (listUpper (pyStrip q)) = containsWholeWord kw (listUpper q) := by
  have hts : ∀ c ∈ q.takeWhile pySpace, pySpace c = true :=
    fun c hc => List.mem_takeWhile_imp hc
  have hrs : ∀ c ∈ ((q.dropWhile pySpace).reverse.takeWhile pySpace).reverse,
      pySpace c = true := fun c hc => List.mem_takeWhile_imp (List.mem_reverse.mp hc)
  have hdd : q.dropWhile pySpace = stripRight (q.dropWhile pySpace)
      ++ ((q.dropWhile pySpace).reverse.takeWhile pySpace).reverse := by
    have h2 := congrArg List.reverse
      (List.takeWhile_append_dropWhile pySpace (q.dropWhile pySpace).reverse)
    rw [List.reverse_append, List.reverse_reverse] at h2
    rw [stripRight]
    exact h2.symm
  have e1 : containsWholeWord kw (listUpper (q.dropWhile pySpace))
      = containsWholeWord kw (listUpper (stripRight (q.dropWhile pySpace))) := by
    conv_lhs => rw [hdd]
    rw [listUpper_append]
    exact cwwAux_append_space hne hw (mem_upper_space hrs) _ false
  have e2 : containsWholeWord kw (listUpper q)
      = containsWholeWord kw (listUpper (q.dropWhile pySpace)) := by
    conv_lhs => rw [show q = q.takeWhile pySpace ++ q.dropWhile pySpace from
      (List.takeWhile_append_dropWhile pySpace q).symm]
    rw [listUpper_append]
    exact cww_append_space_left hne hw (mem_upper_space hts) _
  rw [show pyStrip q = stripRight (q.dropWhile pySpace) from rfl, ← e1, e2]

/-! ### The validity condition of the spec, and its equivalence to the code -/

/-- The spec-side characterization of a valid query (claim C1's wording): the
trimmed query is non-empty, begins with `SELECT` case-insensitively (possibly
after whitespace), contains no semicolon except possibly as its final
character, contains no denylisted keyword as a case-insensitive whole word,
and contains neither `--` nor `/*`. -/
def validSpecB (query : List Char) : Bool :=
  !(pyStrip query).isEmpty && startsSelectCI (pyStrip query)
    && !(pyStrip query).dropLast.contains ';'
    && prohibited_keywords.all (fun kw => !containsWholeWord kw (listUpper (pyStrip query)))
    && !isSubstr "--".data (pyStrip query) && !isSubstr "/*".data (pyStrip query)

theorem validate_eq_spec (q : List Char) : (validate_sql q).1 = validSpecB q := by
  by_cases h0 : q.isEmpty = true
  · rw [List.isEmpty_iff.mp h0]; decide
  · by_cases h1 : (pyStrip q).isEmpty = true
    · simp [validate_sql, validSpecB, h0, h1]
    · by_cases h2 : ';' ∈ (pyStrip q).dropLast
      · simp [validate_sql, validSpecB, h0, h1, h2]
      · by_cases h3 : startsSelectCI (pyStrip q) = true
        · cases hf : prohibited_keywords.find?
              (fun kw => containsWholeWord kw (listUpper (pyStrip q))) with
          | some kw =>
            have hkwp := List.find?_some hf
            have hkwm := List.mem_of_find?_eq_some hf
            have hall : prohibited_keywords.all
                (fun kw => !containsWholeWord kw (listUpper (pyStrip q))) = false := by
              rw [Bool.eq_false_iff]
              intro hall
              rw [List.all_eq_true] at hall
              have hx := hall kw hkwm
              rw [hkwp] at hx
              exact absurd hx (by decide)
            simp [validate_sql, validSpecB, h0, h1, h2, h3, hf, hall]
          | none =>
            have hall : prohibited_keywords.all
                (fun kw => !containsWholeWord kw (listUpper (pyStrip q))) = true := by
              rw [List.all_eq_true]
              intro kw hkw
              rw [List.find?_eq_none] at hf
              simpa using hf kw hkw
            by_cases h4 : isSubstr "--".data (pyStrip q) = true
            · simp [validate_sql, validSpecB, h0, h1, h2, h3, hf, hall, h4]
            · by_cases h5 : isSubstr "/*".data (pyStrip q) = true
              · simp [validate_sql, validSpecB, h0, h1, h2, h3, hf, hall, h4, h5]
              · simp [validate_sql, validSpecB, h0, h1, h2, h3, hf, hall, h4, h5]
        · simp [validate_sql, validSpecB, h0, h1, h2, h3]

theorem validate_true_startsSelect {q : List Char} (h : (validate_sql q).1 = true) :
    startsSelectCI (pyStrip q) = true := by
  have he := validate_eq_spec q
  rw [h] at he
  have hv := he.symm
  rw [validSpecB] at hv
  simp only [Bool.and_eq_true] at hv
  exact hv.1.1.1.1.2

theorem prohibited_facts :
    ∀ kw ∈ prohibited_keywords, kw ≠ [] ∧ kw.all wordChar = true := by decide

/-! ### Claims about the validator -/

/-- C1: `validate_sql` returns valid exactly when the trimmed query is
non-empty, begins with `SELECT` case-insensitively, contains no semicolon
except possibly as its final character, contains no denylisted keyword as a
case-insensitive whole word, and contains neither `--` nor `/*`; in
particular `SELECT * FROM t;` and `select 1` are valid, the empty query is
invalid with the empty-query reason, and `SELECT 1 -- comment` is invalid
with the comments-not-allowed reason. -/
theorem claim_C1 :
    (∀ q : List Char, (validate_sql q).1 = validSpecB q)
    ∧ validate_sql "SELECT * FROM t;".data = (true, "Valid SQL".data)
    ∧ validate_sql "select 1".data = (true, "Valid SQL".data)
    ∧ validate_sql "".data = (false, "Query is empty.".data)
    ∧ validate_sql "SELECT 1 -- comment".data
        = (false, "SQL comments are not allowed.".data) :=
  ⟨validate_eq_spec, by decide, by decide, by decide, by decide⟩

/-- C2 counterexample: `"SELECT 1; "` contains a semicolon before its final
character (the trailing space), yet `validate_sql` accepts it as valid, so the
claim is false for raw (untrimmed) query strings. -/
theorem claim_C2_cex :
    ("SELECT 1; ".data.dropLast.contains ';') = true
    ∧ validate_sql "SELECT 1; ".data = (true, "Valid SQL".data) := by
  constructor
  · decide
  · decide

/-- C2 amended: for every query string whose trimmed form contains a semicolon
before its final character, `validate_sql` returns invalid with the
multiple-statements reason. -/
theorem claim_C2 (q : List Char) (h : ';' ∈ (pyStrip q).dropLast) :
    validate_sql q =
      (false,
       "Multiple statements are not allowed (semicolon detected in middle of query).".data) := by
  have hne : pyStrip q ≠ [] := by
    intro he
    rw [he] at h
    simp at h
  have hq : ¬q.isEmpty = true := by
    intro he
    rw [List.isEmpty_iff.mp he] at hne
    exact hne rfl
  have hne2 : ¬(pyStrip q).isEmpty = true := fun he => hne (List.isEmpty_iff.mp he)
  simp only [validate_sql]
  rw [if_neg hq, if_neg hne2, if_pos (by simpa using h)]

theorem claim_C2_witness :
    validate_sql "a;b".data =
      (false,
       "Multiple statements are not allowed (semicolon detected in middle of query).".data) :=
  claim_C2 "a;b".data (by decide)

/-- C3 counterexample: `"DROP TABLE t"` contains the denylisted keyword `DROP`
as a whole word, but `validate_sql` rejects it with the only-SELECT reason,
not with a prohibited-keyword reason naming `DROP`. -/
theorem claim_C3_cex :
    "DROP".data ∈ prohibited_keywords
    ∧ containsWholeWord "DROP".data (listUpper "DROP TABLE t".data) = true
    ∧ validate_sql "DROP TABLE t".data = (false, "Only SELECT queries are allowed.".data)
    ∧ (validate_sql "DROP TABLE t".data).2 ≠ "Prohibited keyword detected: DROP".data := by
  refine ⟨by decide, by decide, by decide, by decide⟩

/-- C3 amended: every query containing a denylisted keyword as a
case-insensitive whole word is invalid; when the query additionally passes the
earlier checks (trimmed non-empty, no interior semicolon, starts with SELECT),
the reason is `Prohibited keyword detected: K` for some matching denylisted
keyword `K`; and a keyword occurring only as a substring of a longer
identifier does not trigger rejection, so `SELECT updated_at FROM t`
validates. -/
theorem claim_C3 :
    (∀ q kw : List Char, kw ∈ prohibited_keywords →
        containsWholeWord kw (listUpper q) = true → (validate_sql q).1 = false)
    ∧ (∀ q kw : List Char, kw ∈ prohibited_keywords →
        containsWholeWord kw (listUpper q) = true →
        (pyStrip q).isEmpty = false → ';' ∉ (pyStrip q).dropLast →
        startsSelectCI (pyStrip q) = true →
        ∃ kw2, kw2 ∈ prohibited_keywords
          ∧ containsWholeWord kw2 (listUpper (pyStrip q)) = true
          ∧ validate_sql q = (false, "Prohibited keyword detected: ".data ++ kw2))
    ∧ validate_sql "SELECT updated_at FROM t".data = (true, "Valid SQL".data) := by
  refine ⟨?_, ?_, by decide⟩
  · intro q kw hm hc
    obtain ⟨hkne, hkw⟩ := prohibited_facts kw hm
    have hc2 : containsWholeWord kw (listUpper (pyStrip q)) = true := by
      rw [cww_upper_pyStrip hkne hkw]
      exact hc
    rw [validate_eq_spec q, validSpecB]
    have hall : prohibited_keywords.all
        (fun k => !containsWholeWord k (listUpper (pyStrip q))) = false := by
      rw [Bool.eq_false_iff]
      intro hall
      rw [List.all_eq_true] at hall
      have hx := hall kw hm
      rw [hc2] at hx
      exact absurd hx (by decide)
    rw [hall]
    simp
  · intro q kw hm hc hne hsemi hsel
    obtain ⟨hkne, hkw⟩ := prohibited_facts kw hm
    have hc2 : containsWholeWord kw (listUpper (pyStrip q)) = true := by
      rw [cww_upper_pyStrip hkne hkw]
      exact hc
    have hq : ¬q.isEmpty = true := by
      intro he
      rw [List.isEmpty_iff.mp he] at hne
      exact absurd hne (by decide)
    cases hf : prohibited_keywords.find?
        (fun k => containsWholeWord k (listUpper (pyStrip q))) with
    | none =>
      exfalso
      rw [List.find?_eq_none] at hf
      have hx := hf kw hm
      rw [hc2] at hx
      exact hx rfl
    | some kw2 =>
      have hp : containsWholeWord kw2 (listUpper (pyStrip q)) = true := by
        have hx := List.find?_some hf
        simpa using hx
      refine ⟨kw2, List.mem_of_find?_eq_some hf, hp, ?_⟩
      simp only [validate_sql]
      rw [if_neg hq, if_neg (by rw [hne]; exact (by decide)),
        if_neg (by simpa using hsemi), if_neg (by rw [hsel]; exact (by decide)), hf]

theorem claim_C3_witness : (validate_sql "SELECT 1 drop 2".data).1 = false :=
  claim_C3.1 "SELECT 1 drop 2".data "DROP".data (by decide) (by decide)

/-! ### Claims about the query executor -/

/-- C4: whenever `validate_sql` rejects a query, `run_query` submits nothing
to the engine and returns no result together with a `Validation Error:`
message carrying the reason; and every query that does reach the engine was
approved by the validator. -/
theorem claim_C4 (Df : Type) (engine : List Char → Except (List Char) Df)
    (timeStr : List Char) (logs : List LogEntry) (q : List Char) :
    ((validate_sql q).1 = false →
      run_query engine timeStr logs q
        = ⟨none, some ("Validation Error: ".data ++ (validate_sql q).2), logs, []⟩)
    ∧ (∀ q2 ∈ (run_query engine timeStr logs q).submitted, (validate_sql q2).1 = true) := by
  constructor
  · intro hv
    simp [run_query, hv]
  · intro q2 hq2
    simp only [run_query] at hq2
    by_cases hv : (validate_sql q).1 = true
    · rw [if_pos hv] at hq2
      cases hE : engine q with
      | ok df =>
        rw [hE] at hq2
        simp only [List.mem_singleton] at hq2
        rw [hq2]
        exact hv
      | error e =>
        rw [hE] at hq2
        simp only [List.mem_singleton] at hq2
        rw [hq2]
        exact hv
    · rw [if_neg hv] at hq2
      simp at hq2

theorem claim_C4_witness :
    run_query (fun _ => Except.error "no such table".data : List Char → Except (List Char) Unit)
        "0.1s".data [] "DROP x".data
      = ⟨none, some "Validation Error: Only SELECT queries are allowed.".data, [], []⟩ := by
  have h := (claim_C4 Unit
      (fun _ => Except.error "no such table".data) "0.1s".data [] "DROP x".data).1 (by decide)
  exact h.trans (by decide)

/-- C10: a validation rejection leaves the session log unchanged, and in
general a `run_query` call either leaves the log unchanged or prepends exactly
one entry for a query that was actually submitted to the engine. -/
theorem claim_C10 (Df : Type) (engine : List Char → Except (List Char) Df)
    (timeStr : List Char) (logs : List LogEntry) (q : List Char) :
    ((validate_sql q).1 = false → (run_query engine timeStr logs q).logs = logs)
    ∧ ((run_query engine timeStr logs q).logs = logs
        ∨ ∃ e, (run_query engine timeStr logs q).logs = e :: logs
            ∧ (run_query engine timeStr logs q).submitted = [q]) := by
  constructor
  · intro hv
    simp [run_query, hv]
  · by_cases hv : (validate_sql q).1 = true
    · right
      cases hE : engine q with
      | ok df =>
        exact ⟨.success q timeStr, by simp [run_query, hv, hE], by simp [run_query, hv, hE]⟩
      | error e =>
        exact ⟨.error q e, by simp [run_query, hv, hE], by simp [run_query, hv, hE]⟩
    · left
      simp [run_query, hv]

theorem claim_C10_witness :
    (run_query (fun _ => Except.error "boom".data : List Char → Except (List Char) Unit)
        "t".data [] "DELETE FROM t".data).logs = [] :=
  (claim_C10 Unit (fun _ => Except.error "boom".data) "t".data [] "DELETE FROM t".data).1
    (by decide)

/-! ### Claim about the context store -/

theorem schemaChunks_mtype {sn : Snippet} {t : List Char} (h : sn ∈ schemaChunks t) :
    sn.mtype = "schema".data := by
  rw [schemaChunks] at h
  obtain ⟨p, _, rfl⟩ := List.mem_map.mp h
  rfl

/-- C6: `index_schema` removes every schema-kind snippet before inserting the
chunks of the new schema text, so after two calls every schema-kind snippet in
the store is a chunk of the second text, while logic-kind snippets are left
unchanged by any reindexing call. -/
theorem claim_C6 (coll : List Snippet) (t1 t2 : List Char) :
    (∀ sn ∈ index_schema t2 (index_schema t1 coll),
        sn.mtype = "schema".data → sn ∈ schemaChunks t2)
    ∧ (∀ t, (index_schema t coll).filter (fun sn => sn.mtype == "logic".data)
        = coll.filter (fun sn => sn.mtype == "logic".data)) := by
  constructor
  · intro sn hsn hty
    rw [index_schema, List.mem_append] at hsn
    rcases hsn with h | h
    · rw [List.mem_filter] at h
      rw [hty] at h
      simp at h
    · exact h
  · intro t
    rw [index_schema, List.filter_append]
    have h1 : (schemaChunks t).filter (fun sn => sn.mtype == "logic".data) = [] := by
      rw [List.filter_eq_nil_iff]
      intro sn hsn
      rw [schemaChunks_mtype hsn]
      decide
    rw [h1, List.append_nil, List.filter_filter]
    apply List.filter_congr
    intro sn _
    by_cases h : sn.mtype = "logic".data
    · rw [h]
      decide
    · have hb : (sn.mtype == "logic".data) = false := by
        rw [beq_eq_false_iff_ne]
        exact h
      rw [hb, Bool.false_and]

theorem claim_C6_witness :
    (⟨"schema_b_1".data, "Table: b\n- y".data, "schema".data, "b".data⟩ : Snippet)
      ∈ schemaChunks "Table: b\n- y".data :=
  (claim_C6 [⟨"logic_0".data, "txt".data, "logic".data, "generic_sql".data⟩]
      "Table: a\n- x".data "Table: b\n- y".data).1
    ⟨"schema_b_1".data, "Table: b\n- y".data, "schema".data, "b".data⟩
    (by decide) (by decide)

/-! ### Claims about the completion extractor -/

theorem takeBeforeSub_single (c0 : Char) (s : List Char) :
    takeBeforeSub [c0] s = s.takeWhile (fun c => !(c == c0)) := by
  induction s with
  | nil => rfl
  | cons c s ih =>
    by_cases h : c = c0
    · subst h
      rw [takeBeforeSub,
        if_pos (by rw [show [c].isPrefixOf (c :: s) = ((c == c) && List.isPrefixOf [] s)
          from rfl, nil_isPre]; simp),
        List.takeWhile_cons]
      simp
    · rw [takeBeforeSub,
        if_neg (by rw [show [c0].isPrefixOf (c :: s) = ((c0 == c) && List.isPrefixOf [] s)
          from rfl]; simp [Ne.symm h]),
        List.takeWhile_cons]
      simp [h, ih]

theorem isSubstr_single (c0 : Char) (s : List Char) :
    isSubstr [c0] s = s.contains c0 := by
  induction s with
  | nil => rfl
  | cons c s ih =>
    rw [isSubstr, ih,
      show [c0].isPrefixOf (c :: s) = ((c0 == c) && List.isPrefixOf [] s) from rfl,
      nil_isPre, Bool.and_true, List.contains_cons]

theorem contains_decomp {s : List Char} (h : s.contains ';' = true) :
    ∃ rest, s = s.takeWhile (fun c => !(c == ';')) ++ ';' :: rest := by
  induction s with
  | nil => simp at h
  | cons c s ih =>
    by_cases hc : c = ';'
    · subst hc
      refine ⟨s, ?_⟩
      rw [List.takeWhile_cons]
      simp
    · have h2 : s.contains ';' = true := by
        rw [List.contains_cons, Bool.or_eq_true] at h
        rcases h with h | h
        · exact absurd (by simpa using h) (Ne.symm hc)
        · exact h
      obtain ⟨rest, hr⟩ := ih h2
      refine ⟨rest, ?_⟩
      rw [List.takeWhile_cons]
      rw [if_pos (by simp [hc])]
      rw [List.cons_append]
      exact congrArg (c :: ·) hr

theorem takeWhile_no_semi (s : List Char) :
    (s.takeWhile (fun c => !(c == ';'))).contains ';' = false := by
  rw [Bool.eq_false_iff]
  intro hcon
  have hm : (';' : Char) ∈ s.takeWhile (fun c => !(c == ';')) := by
    simpa using hcon
  have := List.mem_takeWhile_imp hm
  simp at this

/-- C8: after line-level cleanup, a candidate containing any semicolon is
truncated to exactly the prefix up to and including its first semicolon; in
particular `SELECT a FROM b; SELECT c FROM d;` becomes `SELECT a FROM b;`. -/
theorem claim_C8 :
    (∀ s : List Char, s.contains ';' = true →
      fixSemicolon s = s.takeWhile (fun c => !(c == ';')) ++ [';']
      ∧ (∃ rest, s = s.takeWhile (fun c => !(c == ';')) ++ ';' :: rest)
      ∧ (s.takeWhile (fun c => !(c == ';'))).contains ';' = false)
    ∧ fixSemicolon "SELECT a FROM b; SELECT c FROM d;".data = "SELECT a FROM b;".data := by
  constructor
  · intro s h
    refine ⟨?_, contains_decomp h, takeWhile_no_semi s⟩
    rw [fixSemicolon, if_pos (by rw [isSubstr_single, h]),
      show (splitOnSub [';'] s).headD [] = (splitOnSub [';'] s).headD [] from rfl,
      splitOnSub_headD _ _ (by decide), takeBeforeSub_single]
  · decide

theorem splitOnSubAux_ne_nil (tok : List Char) (n : Nat) (s : List Char) :
    splitOnSubAux tok n s ≠ [] := by
  cases n with
  | zero => simp [splitOnSubAux]
  | succ n =>
    rw [splitOnSubAux]
    by_cases hc : (isSubstr tok s && !tok.isEmpty) = true
    · rw [if_pos hc]; simp
    · rw [if_neg hc]; simp

theorem splitOnSub_ne_nil (tok s : List Char) : splitOnSub tok s ≠ [] :=
  splitOnSubAux_ne_nil tok _ s

theorem getElem0?_eq {α : Type} {l : List α} (h : l ≠ []) (d : α) :
    l[0]? = some (l.getD 0 d) := by
  cases l with
  | nil => exact absurd rfl h
  | cons a t => simp

theorem getElem1?_eq {α : Type} {l : List α} (h : 2 ≤ l.length) (d : α) :
    l[1]? = some (l.getD 1 d) := by
  cases l with
  | nil => simp at h
  | cons a t =>
    cases t with
    | nil => simp at h
    | cons b t2 => simp

theorem sepStage_eq (s1 : List Char) :
    (if isSubstr sepStr s1 then
       ((splitOnSub sepStr s1)[0]?).bind fun p0 =>
         ((splitOnSub sepStr s1)[1]?).map fun p1 => (pyStrip p0, pyStrip p1)
     else if isSubstr "SELECT".data (listUpper s1) then
       some
         (let i := idxOfSub "SELECT".data (listUpper s1)
          let pre := pyStrip (s1.take i)
          (if 5 < pre.length then pre else [], s1.drop i))
     else some ([], s1))
    = some (extractParts s1) := by
  by_cases hsep : isSubstr sepStr s1 = true
  · rw [if_pos hsep, extractParts, if_pos hsep,
      getElem0?_eq (splitOnSub_ne_nil sepStr s1) ([] : List Char),
      getElem1?_eq (splitOnSub_len2 hsep (by decide)) ([] : List Char)]
    rfl
  · rw [if_neg hsep, extractParts, if_neg hsep]
    by_cases hsel : isSubstr "SELECT".data (listUpper s1) = true
    · rw [if_pos hsel, if_pos hsel]
    · rw [if_neg hsel, if_neg hsel]

theorem fenceStage_eq (s0 : List Char) :
    (if fenceStr.isPrefixOf s0 then ((splitOnSub fenceStr s0)[1]?).map pyStrip
     else some s0) = some (stripFence1 s0) := by
  by_cases hf : fenceStr.isPrefixOf s0 = true
  · rw [if_pos hf, stripFence1, if_pos hf,
      getElem1?_eq (splitOnSub_len2 (isSubstr_of_pre (by decide) hf) (by decide))
        ([] : List Char)]
    rfl
  · rw [if_neg hf, stripFence1, if_neg hf]

/-- C9: the extraction block is total: with every Python list indexing
modelled as a fallible operation, extraction never fails and always produces
the same `(reasoning, sql)` pair (so `sql` is always some string, possibly
empty or unhelpful), for every raw completion. -/
theorem claim_C9 (raw : List Char) : extractSQLOpt raw = some (extractSQL raw) := by
  rw [extractSQLOpt, fenceStage_eq]
  simp only [Option.some_bind]
  rw [show (if "sql".data.isPrefixOf (listLower (stripFence1 (pyStrip raw))) then
        pyStrip ((stripFence1 (pyStrip raw)).drop 3) else stripFence1 (pyStrip raw))
      = stripFences (pyStrip raw) from rfl]
  rw [sepStage_eq, extractSQL]
  rfl

/-- C7 counterexample: when the separator occurs twice, the code keeps only
the text between the first two occurrences (Python `split(...)[1]`), not
everything after the first separator as the claim states: on
`A ### SQL START ### B ### SQL START ### C` the extractor yields sql `B`,
while processing everything after the first separator would yield
`B ### SQL START ### C`. -/
theorem claim_C7_cex :
    extractSQL "A ### SQL START ### B ### SQL START ### C".data = ("A".data, "B".data)
    ∧ fixSemicolon (cleanupLines (pyStrip
        (dropPastSub sepStr "A ### SQL START ### B ### SQL START ### C".data)))
      = "B ### SQL START ### C".data
    ∧ ("B".data : List Char) ≠ "B ### SQL START ### C".data := by
  refine ⟨by decide, by decide, by decide⟩

/-- C7 amended: when the candidate decomposes as `pre ++ separator ++ post`
with no separator occurrence starting before `pre`'s end and none inside
`post` (so the separator occurs exactly once), the extractor sets reasoning to
the trimmed `pre` and takes the trimmed `post` as the SQL candidate; when the
separator occurs again, the candidate is only the text between the first two
occurrences. The cited example behaves as claimed. -/
theorem claim_C7 :
    (∀ pre post : List Char,
        isSubstr sepStr (pre ++ sepStr.dropLast) = false →
        isSubstr sepStr post = false →
        extractParts (pre ++ sepStr ++ post) = (pyStrip pre, pyStrip post))
    ∧ extractSQL "reasoning text ### SQL START ### SELECT * FROM t;\nNote: done".data
        = ("reasoning text".data, "SELECT * FROM t;".data) := by
  constructor
  · intro pre post hpre hpost
    have hne : sepStr ≠ [] := by decide
    have hsub : isSubstr sepStr (pre ++ sepStr ++ post) = true :=
      isSubstr_iff.mpr ⟨pre, post, rfl⟩
    obtain ⟨h1, h2⟩ := @firstOcc_decomp sepStr pre post hne hpre
    rw [extractParts, if_pos hsub, getD_zero_headD, splitOnSub_headD _ _ hne, h1,
      splitOnSub_getD1 hsub hne, h2, takeBeforeSub_eq_self hpost]
  · decide

theorem claim_C7_witness :
    extractParts ("intro ".data ++ sepStr ++ " SELECT 9".data)
      = ("intro".data, "SELECT 9".data) := by
  have h := claim_C7.1 "intro ".data " SELECT 9".data (by decide) (by decide)
  exact h.trans (by decide)

theorem isSubstr_true_of_occursIn {tok t s : List Char} (hin : OccursIn t s)
    (h : isSubstr tok t = true) : isSubstr tok s = true :=
  isSubstr_iff.mpr (occursIn_trans (isSubstr_iff.mp h) hin)

theorem occursIn_stripFence1 (s : List Char) : OccursIn (stripFence1 s) s := by
  rw [stripFence1]
  by_cases hf : fenceStr.isPrefixOf s = true
  · rw [if_pos hf]
    have hsub : isSubstr fenceStr s = true := isSubstr_of_pre (by decide) hf
    rw [splitOnSub_getD1 hsub (by decide)]
    exact occursIn_trans
      (occursIn_trans (occursIn_pyStrip _) (occursIn_of_pre (takeBeforeSub_pre _ _)))
      (occursIn_of_suf (dropPastSub_suf _ _))
  · rw [if_neg hf]
    exact occursIn_refl s

theorem occursIn_stripFences (s : List Char) : OccursIn (stripFences s) s := by
  rw [stripFences]
  by_cases hs : "sql".data.isPrefixOf (listLower (stripFence1 s)) = true
  · rw [if_pos hs]
    exact occursIn_trans
      (occursIn_trans (occursIn_pyStrip _) (occursIn_drop 3 _))
      (occursIn_stripFence1 s)
  · rw [if_neg hs]
    exact occursIn_stripFence1 s

theorem cleanup_noTok {tok s : List Char} (hne : tok ≠ []) (hnl : ('\n' : Char) ∉ tok)
    (h : isSubstr tok (listUpper s) = false) :
    isSubstr tok (listUpper (cleanupLines s)) = false := by
  rw [Bool.eq_false_iff] at h ⊢
  intro hsub
  apply h
  have h1 : isSubstr tok
      (listUpper (joinWith '\n' (cleanLoop (splitOnSub ['\n'] s)))) = true :=
    isSubstr_true_of_occursIn (occursIn_map Char.toUpper (occursIn_pyStrip _)) hsub
  rw [listUpper_joinWith] at h1
  obtain ⟨u, hu, hsu⟩ := isSubstr_joinWith hne hnl h1
  obtain ⟨l, hl, rfl⟩ := List.mem_map.mp hu
  exact isSubstr_true_of_occursIn
    (occursIn_map Char.toUpper (splitOnSub_mem_occursIn (cleanLoop_subset hl))) hsu

theorem fixSemicolon_noTok {tok s : List Char} (hne : tok ≠ []) (hsc : (';' : Char) ∉ tok)
    (h : isSubstr tok (listUpper s) = false) :
    isSubstr tok (listUpper (fixSemicolon s)) = false := by
  rw [fixSemicolon]
  by_cases hm : isSubstr [';'] s = true
  · rw [if_pos hm]
    rw [Bool.eq_false_iff] at h ⊢
    intro hsub
    apply h
    rw [splitOnSub_headD _ _ (by decide), listUpper_append,
      show listUpper [';'] = ';' :: [] from rfl] at hsub
    rcases isSubstr_split_char hne hsc hsub with h1 | h1
    · exact isSubstr_true_of_occursIn
        (occursIn_map Char.toUpper (occursIn_of_pre (takeBeforeSub_pre [';'] s))) h1
    · rw [isSubstr] at h1
      exact absurd (List.isEmpty_iff.mp h1) hne
  · rw [if_neg hm]
    exact h

/-- C5: a raw completion containing neither the separator nor the token
`SELECT` in any letter case yields an extracted sql that is empty or does not
start with SELECT, and `validate_sql` rejects it — such input can never
reach execution through the extractor-then-validator pipeline. -/
theorem claim_C5 (raw : List Char)
    (hsep : isSubstr sepStr raw = false)
    (hsel : isSubstr "SELECT".data (listUpper raw) = false) :
    ((extractSQL raw).2 = []
      ∨ "SELECT".data.isPrefixOf (listUpper (extractSQL raw).2) = false)
    ∧ (validate_sql (extractSQL raw).2).1 = false := by
  have hin1 : OccursIn (stripFences (pyStrip raw)) raw :=
    occursIn_trans (occursIn_stripFences _) (occursIn_pyStrip raw)
  have hsep1 : isSubstr sepStr (stripFences (pyStrip raw)) = false :=
    isSubstr_false_of_occursIn hin1 hsep
  have hsel1 : isSubstr "SELECT".data (listUpper (stripFences (pyStrip raw))) = false :=
    isSubstr_false_of_occursIn (occursIn_map Char.toUpper hin1) hsel
  have hparts : extractParts (stripFences (pyStrip raw))
      = ([], stripFences (pyStrip raw)) := by
    rw [extractParts, if_neg (by rw [hsep1]; exact (by decide)),
      if_neg (by rw [hsel1]; exact (by decide))]
  have hsql : (extractSQL raw).2
      = fixSemicolon (cleanupLines (stripFences (pyStrip raw))) := by
    rw [extractSQL, hparts]
  have hfinal : isSubstr "SELECT".data (listUpper (extractSQL raw).2) = false := by
    rw [hsql]
    exact fixSemicolon_noTok (by decide) (by decide)
      (cleanup_noTok (by decide) (by decide) hsel1)
  refine ⟨Or.inr ?_, ?_⟩
  · rw [Bool.eq_false_iff] at hfinal ⊢
    intro hp
    exact hfinal (isSubstr_of_pre (by decide) hp)
  · rw [Bool.eq_false_iff]
    intro hv
    have hsel2 := validate_true_startsSelect hv
    rw [startsSelectCI] at hsel2
    have h1 : isSubstr "SELECT".data
        (listUpper (((pyStrip (extractSQL raw).2)).dropWhile pySpace)) = true :=
      isSubstr_of_pre (by decide) hsel2
    have h2 : isSubstr "SELECT".data (listUpper (extractSQL raw).2) = true :=
      isSubstr_true_of_occursIn
        (occursIn_map Char.toUpper
          (occursIn_trans (occursIn_dropWhile pySpace _) (occursIn_pyStrip _))) h1
    rw [h2] at hfinal
    exact absurd hfinal (by decide)

theorem claim_C5_witness :
    ((extractSQL "I cannot answer this question.".data).2 = []
      ∨ "SELECT".data.isPrefixOf
          (listUpper (extractSQL "I cannot answer this question.".data).2) = false)
    ∧ (validate_sql (extractSQL "I cannot answer this question.".data).2).1 = false :=
  claim_C5 "I cannot answer this question.".data (by decide) (by decide)

theorem claim_C8_witness :
    fixSemicolon "a;b;".data = "a;".data
    ∧ (∃ rest, "a;b;".data = "a".data ++ ';' :: rest) := by
  have h := claim_C8.1 "a;b;".data (by decide)
  constructor
  · exact h.1.trans (by decide)
  · obtain ⟨rest, hr⟩ := h.2.1
    refine ⟨rest, ?_⟩
    have he : ("a;b;".data.takeWhile fun c => !(c == ';')) = "a".data := by decide
    rw [← he]
    exact hr
